import Mathlib

/-!
# Verification of the gocfg configuration loader

Shallow embedding of the gocfg repository (gocfg.go, tags.go, circular.go).
Tags and field values are modelled as `List Char` (the Go code scans tags
byte by byte; all tag syntax is ASCII, so a character-level model is exact).
Go maps iterate in an unspecified order; wherever the source ranges over a
map, the model takes the iteration order as an explicit parameter so that
theorems can quantify over every order the runtime may choose.
-/

set_option autoImplicit false

abbrev Str := List Char

deriving instance DecidableEq for Except

/-- Errors of utils/errors.go plus `fuelOut`, the sentinel returned when the
recursion counter of the cycle detector runs out (proved unreachable for the
fuel used by `detectCircularDependencies`). -/
inductive Err where
  | unbound (name : Str)
  | circular (a b : Str)
  | fuelOut
deriving DecidableEq

/-- Errors returned by `Load`: either an error of the pre-scheduling phase
(`plain`), a resolver or loader error wrapped with the owning field's name
(gocfg.go wraps with "error resolving tag for %s" / "error loading %s"), or
the stalled-resolution error. -/
inductive LoadErr where
  | plain (e : Err)
  | resolving (field : Str) (e : Err)
  | loading (field : Str) (msg : Str)
  | stall
deriving DecidableEq

/-- Go `unicode.IsSpace` restricted to the Latin-1 range (the characters
`strings.TrimSpace` strips for the tags appearing in this code base). -/
def isSpaceChar (c : Char) : Bool :=
  c = ' ' || c = '\t' || c = '\n' || c = '\x0b' || c = '\x0c' || c = '\r' ||
  c = '\x85' || c = '\xa0'

/-- `strings.TrimSpace`. -/
def trimStr (s : Str) : Str :=
  ((s.dropWhile isSpaceChar).reverse.dropWhile isSpaceChar).reverse

/-- tags.go `isIdentChar`. -/
def isIdentChar (c : Char) : Bool :=
  ('a' ≤ c && c ≤ 'z') || ('A' ≤ c && c ≤ 'Z') || ('0' ≤ c && c ≤ '9') || c = '_'

/-- tags.go `parseTag`, single left-to-right scan.  The second argument is
the reference currently being accumulated (Go jumps `i` across the maximal
identifier run; here the run is consumed one character at a time), the third
is the `inEscape` flag.  When a run ends at a non-identifier character the Go
loop resumes at that character with `inEscape` false, which is inlined in the
flush branch. -/
def parseTagAux : Str → Option Str → Bool → List Str
  | [], none, _ => []
  | [], some acc, _ => [acc]
  | _ :: rest, none, true => parseTagAux rest none false
  | '"' :: rest, none, false => parseTagAux rest none true
  | '@' :: rest, none, false =>
    match rest with
    | [] => []
    | c :: _ =>
      if isIdentChar c then parseTagAux rest (some []) false
      else parseTagAux rest none false
  | _ :: rest, none, false => parseTagAux rest none false
  | c :: rest, some acc, _ =>
    if isIdentChar c then parseTagAux rest (some (acc ++ [c])) false
    else
      acc :: (match c, rest with
        | '"', _ => parseTagAux rest none true
        | '@', c2 :: _ =>
          if isIdentChar c2 then parseTagAux rest (some []) false
          else parseTagAux rest none false
        | '@', [] => []
        | _, _ => parseTagAux rest none false)

/-- tags.go `parseTag`: the ordered list of field references in a tag. -/
def parseTag (tag : Str) : List Str := parseTagAux tag none false

/-- The escape loop of tags.go `resolvePart`: `"` toggles escape-next-char,
an escaped character is copied verbatim, everything else is copied. -/
def applyEscapes : Str → Bool → Str
  | [], _ => []
  | c :: rest, true => c :: applyEscapes rest false
  | c :: rest, false =>
    if c = '"' then applyEscapes rest true else c :: applyEscapes rest false

/-- The in-progress record: every struct field name paired with its current
string value (reflect `FieldByName` / `Value.String`). -/
def lookupRec (configValue : List (Str × Str)) (k : Str) : Option Str :=
  (configValue.find? (fun p => p.1 == k)).map (·.2)

/-- tags.go `resolvePart`: a part starting with `@` is a field lookup on the
whole remainder of the part; otherwise the escape loop copies the part. -/
def resolvePart (configValue : List (Str × Str)) (part : Str) : Except Err Str :=
  match part with
  | '@' :: fieldName =>
    match lookupRec configValue fieldName with
    | none => Except.error (Err.unbound fieldName)
    | some v => Except.ok v
  | _ => Except.ok (applyEscapes part false)

/-- `strings.Contains(tag, "||")`. -/
def containsBars : Str → Bool
  | '|' :: '|' :: _ => true
  | _ :: rest => containsBars rest
  | [] => false

/-- `strings.Split(tag, "||")`: split at every non-overlapping occurrence of
`||`, scanning left to right. -/
def splitOnBars : Str → List Str
  | '|' :: '|' :: rest => [] :: splitOnBars rest
  | c :: rest =>
    match splitOnBars rest with
    | h :: t => (c :: h) :: t
    | [] => [[c]]
  | [] => [[]]

/-- The part loop of tags.go `resolveTag`: trim each part, resolve it,
return the first error, concatenate the results. -/
def resolveParts (configValue : List (Str × Str)) : List Str → Except Err Str
  | [] => Except.ok []
  | p :: rest =>
    match resolvePart configValue (trimStr p) with
    | Except.error e => Except.error e
    | Except.ok r =>
      match resolveParts configValue rest with
      | Except.error e => Except.error e
      | Except.ok rs => Except.ok (r ++ rs)

/-- tags.go `resolveTag`. -/
def resolveTag (configValue : List (Str × Str)) (tag : Str) : Except Err Str :=
  if containsBars tag then resolveParts configValue (splitOnBars tag)
  else resolvePart configValue tag

/-- circular.go `node` (the `fieldIndex` and `resolved` fields are realised
by addressing fields by name and by deleting resolved nodes from the pending
collection, exactly as `Load` uses them). -/
structure Node where
  fieldName : Str
  tag : Str
  loaderName : Str
  deps : List Str
deriving DecidableEq

def lookupNode (g : List Node) (n : Str) : Option Node :=
  g.find? (fun nd => nd.fieldName == n)

def names (g : List Node) : List Str := g.map (·.fieldName)

/-- circular.go `checkCycle`.  `fuel` only bounds the visit depth (one unit
per node visit); `visited` and the recursion stack are passed explicitly,
the stack entry for a node being popped by returning to the caller. -/
def checkCycle (g : List Node) : Nat → List Str → List Str → Str → Except Err (List Str)
  | 0, _, _, _ => Except.error Err.fuelOut
  | fuel + 1, visited, recStack, n =>
    match lookupNode g n with
    | none => Except.error (Err.unbound n)
    | some nd =>
      nd.deps.foldl (fun acc d =>
        match acc with
        | Except.error e => Except.error e
        | Except.ok v =>
          if d ∈ v then
            if d ∈ n :: recStack then Except.error (Err.circular n d)
            else Except.ok v
          else checkCycle g fuel v (n :: recStack) d)
        (Except.ok (n :: visited))

/-- The dependency loop of `checkCycle`, named so that lemmas can be stated
about it; `checkCycle_succ` below identifies it with the fold inside
`checkCycle`. -/
def checkDeps (g : List Node) (fuel : Nat) (recStack : List Str) (n : Str)
    (deps : List Str) (acc : Except Err (List Str)) : Except Err (List Str) :=
  deps.foldl (fun acc d =>
    match acc with
    | Except.error e => Except.error e
    | Except.ok v =>
      if d ∈ v then
        if d ∈ n :: recStack then Except.error (Err.circular n d)
        else Except.ok v
      else checkCycle g fuel v (n :: recStack) d) acc

/-- The driver loop of circular.go `detectCircularDependencies`: visit every
node name (in the map iteration order `order`) not yet visited. -/
def detectGo (g : List Node) (fuel : Nat) : List Str → List Str → Option Err
  | [], _ => none
  | x :: rest, visited =>
    if x ∈ visited then detectGo g fuel rest visited
    else
      match checkCycle g fuel visited [] x with
      | Except.error e => some e
      | Except.ok v => detectGo g fuel rest v

/-- circular.go `detectCircularDependencies`; `g.length + 1` units of fuel
always suffice (each nested visit marks a new node visited). -/
def detectCircularDependencies (order : List Str) (g : List Node) : Option Err :=
  detectGo g (g.length + 1) order []

/-- One struct field of the config type: its name and its tag string per
annotation namespace (`reflect.StructTag.Get` returns "" when absent). -/
structure FieldSpec where
  name : Str
  tags : List (Str × Str)
deriving DecidableEq

def getTag (f : FieldSpec) (loaderName : Str) : Str :=
  ((f.tags.find? (fun p => p.1 == loaderName)).map (·.2)).getD []

/-- The first pass of gocfg.go `Load`: for each field, scan the loader map in
iteration order `mapOrder` and build a node from the first loader whose tag
is non-empty (`break` after the first match); the tag is trimmed and its
dependencies parsed. -/
def buildNodes (mapOrder : List Str) (fields : List FieldSpec) : List Node :=
  fields.filterMap (fun f =>
    (mapOrder.find? (fun ln => !(getTag f ln).isEmpty)).map (fun ln =>
      let tag := trimStr (getTag f ln)
      { fieldName := f.name, tag := tag, loaderName := ln, deps := parseTag tag }))

/-- The zero-valued config: every struct field holds the empty string. -/
def initRec (fields : List FieldSpec) : List (Str × Str) :=
  fields.map (fun f => (f.name, []))

/-- Writing a value into a struct field: updates the value stored under the
field's name, never changing the key set. -/
def setField (configValue : List (Str × Str)) (k v : Str) : List (Str × Str) :=
  configValue.map (fun p => if p.1 == k then (p.1, v) else p)

def keysOf (configValue : List (Str × Str)) : List Str := configValue.map (·.1)

/-- State threaded through the scheduler: the config being populated and the
ordered list of fields whose loader has been invoked. -/
structure St where
  record : List (Str × Str)
  log : List Str
deriving DecidableEq

/-- A source adapter's `Load` method, abstracted: given the loader name, the
field name and the resolved tag it produces the value written into the field
or an error message. -/
abbrev LoadFn := Str → Str → Str → Except Str Str

/-- The ready check of gocfg.go `Load`: a dependency blocks only while a node
of that name is still pending (resolved nodes are deleted from the map, so a
deleted or never-tracked name is treated as satisfied). -/
def isReady (pendingNames : List Str) (n : Node) : Bool :=
  n.deps.all (fun d => decide (d ∉ pendingNames))

/-- One pass of the scheduler loop: scan the pending nodes in map iteration
order; a ready node has its tag resolved against the current record and its
loader invoked, and is removed; errors abort the pass immediately, returning
the record as already mutated (Go returns the named result `config`). -/
def runPass (load : LoadFn) : List Node → List Node → St →
    Except (LoadErr × St) (List Node × St)
  | [], kept, st => Except.ok (kept, st)
  | n :: rest, kept, st =>
    if isReady (names (kept ++ n :: rest)) n then
      match resolveTag st.record n.tag with
      | Except.error e => Except.error (LoadErr.resolving n.fieldName e, st)
      | Except.ok rtag =>
        let st' : St := ⟨st.record, st.log ++ [n.fieldName]⟩
        match load n.loaderName n.fieldName rtag with
        | Except.error m => Except.error (LoadErr.loading n.fieldName m, st')
        | Except.ok v =>
          runPass load rest kept ⟨setField st'.record n.fieldName v, st'.log⟩
    else runPass load rest (kept ++ [n]) st

/-- The outer scheduler loop of gocfg.go `Load`: run passes until nothing is
pending; a pass that resolves no field is the stalled-resolution error.  The
fuel gives the maximal number of passes, each pass removing at least one node
on the recursive path; `Load` passes `pending.length + 1`, which is proved
sufficient whenever progress is possible. -/
def runSched (load : LoadFn) (reorder : List Node → List Node) :
    Nat → List Node → St → St × Option LoadErr
  | _, [], st => (st, none)
  | 0, _ :: _, st => (st, some LoadErr.stall)
  | fuel + 1, pending@(_ :: _), st =>
    match runPass load (reorder pending) [] st with
    | Except.error (e, st') => (st', some e)
    | Except.ok (pending', st') =>
      if pending'.length < pending.length then runSched load reorder fuel pending' st'
      else (st', some LoadErr.stall)

/-- gocfg.go `Load`.  `mapOrder` is the iteration order of the loader map in
the node-building pass, `detectOrder` the iteration order of the driver loop
of the cycle detector, and `reorder` produces the iteration order of each
scheduler pass; all three are unspecified map orders in Go. -/
def Load (load : LoadFn) (reorder : List Node → List Node)
    (mapOrder detectOrder : List Str) (fields : List FieldSpec) :
    St × Option LoadErr :=
  let nodes := buildNodes mapOrder fields
  let st0 : St := ⟨initRec fields, []⟩
  match detectCircularDependencies detectOrder nodes with
  | some e => (st0, some (LoadErr.plain e))
  | none => runSched load reorder (nodes.length + 1) nodes st0

/-- An edge of the dependency graph: node `a` exists and lists `b` among its
dependencies. -/
def edgeB (g : List Node) (a b : Str) : Bool :=
  g.any (fun nd => nd.fieldName == a && nd.deps.contains b)

def edge (g : List Node) (a b : Str) : Prop := edgeB g a b = true

instance (g : List Node) (a b : Str) : Decidable (edge g a b) := by
  unfold edge; infer_instance

/-- Shorthand for writing concrete tags and names. -/
def str (x : String) : Str := x.toList

/-- `strings.Join(parts, "")`. -/
def joinStr (l : List Str) : Str := l.foldr (fun a b => a ++ b) []

/-- Concrete record for the reference-substitution counterexample. -/
def recC2 : List (Str × Str) := [(str "A", str "v")]

/-- Concrete field set for the adapter-selection claim: one field annotated
under both the `a` and the `b` namespace. -/
def fieldsC1 : List FieldSpec := [⟨str "F", [(str "a", str "x"), (str "b", str "y")]⟩]

/-- Dependencies of the node registered under a name (empty when untracked). -/
def ndeps (g : List Node) (x : Str) : List Str :=
  ((lookupNode g x).map (·.deps)).getD []

/-- The reversed edge relation, as it appears along the recursion stack of
`checkCycle` (each stack entry is a dependency of the entry below it). -/
def flipEdge (g : List Node) (a b : Str) : Prop := edge g b a

/-- The graph has a directed cycle. -/
def HasCycle (g : List Node) : Prop :=
  ∃ a l, List.Chain (edge g) a (l ++ [a])

/-- Invariant of the depth-first search: every visited node that is off the
recursion stack is tracked, and its dependencies are visited, off the stack
and of strictly smaller rank. -/
def DfsInv (g : List Node) (v rs : List Str) : Prop :=
  ∃ r : Str → Nat, ∀ x ∈ v, x ∉ rs →
    x ∈ names g ∧ ∀ d ∈ ndeps g x, d ∈ v ∧ d ∉ rs ∧ r d < r x

/-- Number of tracked names not yet visited; bounds the remaining visit
depth of `checkCycle`. -/
def unvisitedCount (g : List Node) (v : List Str) : Nat :=
  ((names g).filter (fun x => decide (x ∉ v))).length

def maxOver (v : List Str) (r : Str → Nat) : Nat := (v.map r).foldr Nat.max 0

/-- What a completed `checkCycle` call guarantees. -/
def CCres (g : List Node) (v rs : List Str) (n : Str)
    (res : Except Err (List Str)) : Prop :=
  (∀ v', res = Except.ok v' → v ⊆ v' ∧ n ∈ v' ∧ DfsInv g v' rs) ∧
  (∀ a b, res = Except.error (Err.circular a b) → edge g a b ∧ HasCycle g) ∧
  (∀ x, res = Except.error (Err.unbound x) →
    lookupNode g x = none ∧ (x = n ∨ ∃ m, edge g m x)) ∧
  res ≠ Except.error Err.fuelOut

/-- What a completed dependency loop guarantees (the stack entry for `n` is
popped on success). -/
def CDres (g : List Node) (v rs : List Str) (res : Except Err (List Str)) : Prop :=
  (∀ v', res = Except.ok v' → v ⊆ v' ∧ DfsInv g v' rs) ∧
  (∀ a b, res = Except.error (Err.circular a b) → edge g a b ∧ HasCycle g) ∧
  (∀ x, res = Except.error (Err.unbound x) →
    lookupNode g x = none ∧ ∃ m, edge g m x) ∧
  res ≠ Except.error Err.fuelOut

/-- Soundness and progress of `checkCycle` at a given amount of fuel. -/
def CCgood (g : List Node) (fuel : Nat) : Prop :=
  ∀ v rs n, rs ⊆ v → n ∉ v → DfsInv g v rs →
    List.Chain' (flipEdge g) (n :: rs) →
    unvisitedCount g v < fuel →
    CCres g v rs n (checkCycle g fuel v rs n)

/-- A loader that always succeeds, writing `v`. -/
def cLoadOk : LoadFn := fun _ _ _ => Except.ok (str "v")

/-- Concrete fields with a two-cycle `A -> B -> A`. -/
def fieldsC4 : List FieldSpec :=
  [⟨str "A", [(str "env", str "@B")]⟩, ⟨str "B", [(str "env", str "@A")]⟩]

/-- Concrete fields where `A` references the struct field `X` that carries no
annotation, so `X` is a record field but not a tracked node. -/
def fieldsC6 : List FieldSpec :=
  [⟨str "A", [(str "env", str "@X")]⟩, ⟨str "X", []⟩]

/-- Concrete fields where `A` references a name that exists nowhere. -/
def fieldsC7 : List FieldSpec := [⟨str "A", [(str "env", str "@Missing")]⟩]

def fieldNames (fields : List FieldSpec) : List Str := fields.map (·.name)

/-- Decidable check that every part of a tag that begins with `@` names an
existing record field, so that `resolveTag` cannot fail against a record
with those keys. -/
def resolveOk (keys : List Str) (tag : Str) : Bool :=
  (if containsBars tag then (splitOnBars tag).map trimStr else [tag]).all
    (fun p => match p with
      | '@' :: rest => keys.contains rest
      | _ => true)

/-- The invocation log is topologically ordered: walking the log left to
right with the already-walked elements in `done`, every tracked node is
logged only after all its dependencies. -/
def TopoOrdered (g : List Node) : List Str → List Str → Prop
  | _, [] => True
  | done, f :: rest =>
    (∀ nd ∈ g, nd.fieldName = f → ∀ d ∈ nd.deps, d ∈ done) ∧
    TopoOrdered g (done ++ [f]) rest

/-- A loader family in which field `B` fails while everything else loads. -/
def cLoad5 : LoadFn := fun _ f _ =>
  if f = str "A" then Except.ok (str "x") else Except.error (str "boom")

/-- Two independent fields; with `cLoad5`, `A` loads and `B` fails. -/
def cFields5 : List FieldSpec :=
  [⟨str "A", [(str "env", str "TA")]⟩, ⟨str "B", [(str "env", str "TB")]⟩]

/-- `A` references `B:k`: the parsed dependency is `B` (tracked, acyclic) but
the resolver looks up the whole remainder `B:k`, which is no field. -/
def fieldsC3 : List FieldSpec :=
  [⟨str "A", [(str "env", str "@B:k")]⟩, ⟨str "B", [(str "env", str "x")]⟩]

/-- A well-formed acyclic record: `A` references `B`, `B` is a literal. -/
def fieldsC3w : List FieldSpec :=
  [⟨str "A", [(str "env", str "@B")]⟩, ⟨str "B", [(str "env", str "x")]⟩]

theorem find?_of_unique (l : List Str) (p : Str → Bool) (a : Str)
    (hmem : a ∈ l) (hp : p a = true) (huniq : ∀ x ∈ l, p x = true → x = a) :
    l.find? p = some a := by
  induction l with
  | nil => cases hmem
  | cons y rest ih =>
    by_cases hy : p y = true
    · have hya : y = a := huniq y (List.mem_cons_self _ _) hy
      subst hya
      simp [List.find?, hy]
    · have hya : y ≠ a := fun h => hy (h ▸ hp)
      have hmem' : a ∈ rest := by
        rcases List.mem_cons.mp hmem with h | h
        · exact absurd h.symm hya
        · exact h
      have hne : p y = false := by simpa using hy
      simp only [List.find?, hne]
      exact ih hmem' (fun x hx hpx => huniq x (List.mem_cons_of_mem _ hx) hpx)

theorem resolveParts_eq_mapM (cv : List (Str × Str)) (ps : List Str) :
    resolveParts cv ps =
      Except.map joinStr (ps.mapM (fun p => resolvePart cv (trimStr p))) := by
  induction ps with
  | nil => rfl
  | cons p rest ih =>
    simp only [resolveParts, List.mapM_cons]
    cases h : resolvePart cv (trimStr p) with
    | error e => simp [h, Except.map, Except.bind, Bind.bind]
    | ok r =>
      rw [ih]
      cases h2 : rest.mapM (fun p => resolvePart cv (trimStr p)) with
      | error e => simp [h2, Except.map, Except.bind, Bind.bind, h]
      | ok rs =>
        simp [h2, Except.map, Except.bind, Bind.bind, h, joinStr, Pure.pure, Except.pure]

/-- C1 counterexample: the field `F` carries a non-empty annotation for both
registered adapters `a` and `b` (argument-list order `[a, b]`).  Under the
loader-map iteration order `[b, a]` — a permutation of the same key set, and
a legitimate Go map iteration order — the field is claimed by `b`, not by the
first adapter of the argument list, so the claim is not determined by the
argument-list order alone. -/
theorem C1_counterexample :
    [str "b", str "a"].Perm [str "a", str "b"] ∧
      (buildNodes [str "b", str "a"] fieldsC1).map (·.loaderName) = [str "b"] ∧
      str "b" ≠ str "a" := by
  refine ⟨?_, by decide, by decide⟩
  decide

/-- C1 (amended): a field is claimed by the first adapter in the iteration
order of the internal loader map, which is an unspecified permutation of the
registered names; only when exactly one registered adapter's annotation
namespace is non-empty on the field is the claiming adapter determined
independently of that order. -/
theorem C1_unique_loader_claims (order keys : List Str) (f : FieldSpec) (ln : Str)
    (hperm : order.Perm keys) (hmem : ln ∈ keys) (hne : getTag f ln ≠ [])
    (huniq : ∀ ln2 ∈ keys, ln2 ≠ ln → getTag f ln2 = []) :
    buildNodes order [f] =
      [{ fieldName := f.name, tag := trimStr (getTag f ln), loaderName := ln,
         deps := parseTag (trimStr (getTag f ln)) }] := by
  have hfind : order.find? (fun l => !(getTag f l).isEmpty) = some ln := by
    refine find?_of_unique _ _ _ (hperm.mem_iff.mpr hmem) ?_ ?_
    · simp [List.isEmpty_iff, hne]
    · intro x hx hpx
      by_contra hxne
      have : getTag f x = [] := huniq x (hperm.mem_iff.mp hx) hxne
      simp [this] at hpx
  simp [buildNodes, hfind]

/-- Witness for `C1_unique_loader_claims`: a field annotated only under `b`
is claimed by `b` whatever the iteration order. -/
theorem C1_unique_loader_claims_witness :
    buildNodes [str "a", str "b"] [⟨str "F", [(str "b", str "y")]⟩] =
      [{ fieldName := str "F", tag := trimStr (getTag ⟨str "F", [(str "b", str "y")]⟩ (str "b")),
         loaderName := str "b",
         deps := parseTag (trimStr (getTag ⟨str "F", [(str "b", str "y")]⟩ (str "b"))) }] :=
  C1_unique_loader_claims [str "a", str "b"] [str "a", str "b"]
    ⟨str "F", [(str "b", str "y")]⟩ (str "b") (List.Perm.refl _)
    (by decide) (by decide) (by decide)

/-- C2 counterexample: in the part `x@A` the occurrence of `@A` is unescaped
(the parser records it as a reference) and field `A` holds `v`, yet
`resolvePart` copies the part verbatim — substitution does not apply to a
reference that occurs after the first character of a part, so the resolved
string is `x@A`, not `xv`. -/
theorem C2_counterexample :
    resolvePart recC2 (str "x@A") = Except.ok (str "x@A") ∧
      parseTag (str "x@A") = [str "A"] ∧
      lookupRec recC2 (str "A") = some (str "v") ∧
      ¬ resolvePart recC2 (str "x@A") = Except.ok (str "xv") := by
  refine ⟨by decide, by decide, by decide, by decide⟩

/-- C2 (amended): a reference is substituted only when the whole part begins
with `@`; in that case the entire remainder of the part is used as the field
name and the part resolves to that field's current value.  Occurrences of
`@Identifier` after the first character of a part are copied literally (see
the counterexample). -/
theorem C2_reference_at_part_start (cv : List (Str × Str)) (name v : Str)
    (h : lookupRec cv name = some v) :
    resolvePart cv ('@' :: name) = Except.ok v := by
  simp [resolvePart, h]

/-- Witness for `C2_reference_at_part_start`. -/
theorem C2_reference_at_part_start_witness :
    lookupRec recC2 (str "A") = some (str "v") ∧
      resolvePart recC2 ('@' :: str "A") = Except.ok (str "v") :=
  ⟨by decide, C2_reference_at_part_start recC2 (str "A") (str "v") (by decide)⟩

/-- C8: the tag `"@"FOO` (a quote-escaped `@` followed by `FOO`) resolves to
the literal text `@FOO` for every record — the escaped `@` is copied
verbatim, no lookup of a field `FOO` happens — and the parser extracts no
reference from it. -/
theorem C8_escaped_at_is_literal (cv : List (Str × Str)) :
    resolveTag cv (str "\"@\"FOO") = Except.ok (str "@FOO") ∧
      parseTag (str "\"@\"FOO") = [] :=
  ⟨rfl, rfl⟩

/-- C9: whenever a tag contains `||`, `resolveTag` splits the raw tag at
every occurrence of `||`, trims each part, resolves each part independently
with `resolvePart`, and concatenates the results in order with no separator
(any part error aborting the whole resolution). -/
theorem C9_concatenation (cv : List (Str × Str)) (tag : Str)
    (h : containsBars tag = true) :
    resolveTag cv tag =
      Except.map joinStr ((splitOnBars tag).mapM (fun p => resolvePart cv (trimStr p))) := by
  rw [resolveTag, if_pos h, resolveParts_eq_mapM]

/-- Witness for `C9_concatenation`: `@A||@B||lit` with `A = x`, `B = y`
resolves to `xylit` = resolve(A) ++ resolve(B) ++ "lit". -/
theorem C9_concatenation_witness :
    containsBars (str "@A||@B||lit") = true ∧
      resolveTag [(str "A", str "x"), (str "B", str "y")] (str "@A||@B||lit") =
        Except.map joinStr ((splitOnBars (str "@A||@B||lit")).mapM
          (fun p => resolvePart [(str "A", str "x"), (str "B", str "y")] (trimStr p))) ∧
      resolveTag [(str "A", str "x"), (str "B", str "y")] (str "@A||@B||lit") =
        Except.ok (str "xylit") :=
  ⟨by decide, C9_concatenation _ _ (by decide), by decide⟩

/-- C10: when a part begins with `@`, `resolvePart` uses the entire
remainder of the part as the field name: for `@Name:key` it looks up a field
literally named `Name:key` and fails with an unbound-reference error naming
`Name:key` whenever no such field exists (even if a field `Name` exists),
while `parseTag` records the dependency of the same tag as just `Name`. -/
theorem C10_whole_remainder_lookup (cv : List (Str × Str))
    (h : lookupRec cv (str "Name:key") = none) :
    resolvePart cv (str "@Name:key") = Except.error (Err.unbound (str "Name:key")) ∧
      parseTag (str "@Name:key") = [str "Name"] := by
  constructor
  · simp [resolvePart]
    rw [show str "@Name:key" = '@' :: str "Name:key" by decide]
    simp [resolvePart, h]
  · decide

/-- Witness for `C10_whole_remainder_lookup`: the record has a field `Name`
but none named `Name:key`. -/
theorem C10_whole_remainder_lookup_witness :
    lookupRec [(str "Name", str "v")] (str "Name:key") = none ∧
      lookupRec [(str "Name", str "v")] (str "Name") = some (str "v") ∧
      (resolvePart [(str "Name", str "v")] (str "@Name:key") =
          Except.error (Err.unbound (str "Name:key")) ∧
        parseTag (str "@Name:key") = [str "Name"]) :=
  ⟨by decide, by decide, C10_whole_remainder_lookup _ (by decide)⟩

theorem checkCycle_succ (g : List Node) (fuel : Nat) (v rs : List Str) (n : Str) :
    checkCycle g (fuel + 1) v rs n =
      match lookupNode g n with
      | none => Except.error (Err.unbound n)
      | some nd => checkDeps g fuel rs n nd.deps (Except.ok (n :: v)) := rfl

theorem checkDeps_nil (g : List Node) (fuel : Nat) (rs : List Str) (n : Str)
    (acc : Except Err (List Str)) : checkDeps g fuel rs n [] acc = acc := rfl

theorem checkDeps_cons (g : List Node) (fuel : Nat) (rs : List Str) (n : Str)
    (d : Str) (rest : List Str) (acc : Except Err (List Str)) :
    checkDeps g fuel rs n (d :: rest) acc =
      checkDeps g fuel rs n rest
        (match acc with
         | Except.error e => Except.error e
         | Except.ok v =>
           if d ∈ v then
             if d ∈ n :: rs then Except.error (Err.circular n d)
             else Except.ok v
           else checkCycle g fuel v (n :: rs) d) := rfl

theorem lookupNode_mem (g : List Node) (x : Str) (nd : Node)
    (h : lookupNode g x = some nd) : nd ∈ g ∧ nd.fieldName = x := by
  refine ⟨List.mem_of_find?_eq_some h, ?_⟩
  have := List.find?_some h
  simpa using this

theorem mem_names_of_lookup (g : List Node) (x : Str) (nd : Node)
    (h : lookupNode g x = some nd) : x ∈ names g := by
  obtain ⟨hm, he⟩ := lookupNode_mem g x nd h
  exact he ▸ List.mem_map_of_mem _ hm

theorem lookup_ne_none_of_mem_names (g : List Node) (x : Str)
    (h : x ∈ names g) : lookupNode g x ≠ none := by
  obtain ⟨nd, hm, he⟩ := List.mem_map.mp h
  intro hn
  have : (g.find? (fun nd => nd.fieldName == x)).isSome := by
    rw [List.find?_isSome]
    exact ⟨nd, hm, by simp [he]⟩
  rw [show g.find? (fun nd => nd.fieldName == x) = lookupNode g x from rfl, hn] at this
  cases this

theorem edge_of_lookup (g : List Node) (n : Str) (nd : Node) (d : Str)
    (hlk : lookupNode g n = some nd) (hd : d ∈ nd.deps) : edge g n d := by
  obtain ⟨hm, he⟩ := lookupNode_mem g n nd hlk
  unfold edge edgeB
  rw [List.any_eq_true]
  exact ⟨nd, hm, by simp [he, hd]⟩

theorem edge_elim (g : List Node) (a b : Str) (h : edge g a b) :
    ∃ nd ∈ g, nd.fieldName = a ∧ b ∈ nd.deps := by
  unfold edge edgeB at h
  rw [List.any_eq_true] at h
  obtain ⟨nd, hm, hp⟩ := h
  rw [Bool.and_eq_true] at hp
  exact ⟨nd, hm, by simpa using hp.1, by simpa using hp.2⟩

theorem edge_source_mem (g : List Node) (a b : Str) (h : edge g a b) :
    a ∈ names g := by
  obtain ⟨nd, hm, he, _⟩ := edge_elim g a b h
  exact he ▸ List.mem_map_of_mem _ hm

theorem le_maxOver (v : List Str) (r : Str → Nat) (x : Str) (hx : x ∈ v) :
    r x ≤ maxOver v r := by
  induction v with
  | nil => cases hx
  | cons y rest ih =>
    rcases List.mem_cons.mp hx with h | h
    · subst h; exact Nat.le_max_left _ _
    · exact (ih h).trans (Nat.le_max_right _ _)

theorem DfsInv_push (g : List Node) (v rs : List Str) (n : Str)
    (hnv : n ∉ v) (hinv : DfsInv g v rs) : DfsInv g (n :: v) (n :: rs) := by
  obtain ⟨r, hr⟩ := hinv
  refine ⟨r, ?_⟩
  intro x hxv hxrs
  have hxn : x ≠ n := fun h => hxrs (h ▸ List.mem_cons_self _ _)
  have hxv' : x ∈ v := by
    rcases List.mem_cons.mp hxv with h | h
    · exact absurd h hxn
    · exact h
  have hxrs' : x ∉ rs := fun h => hxrs (List.mem_cons_of_mem _ h)
  obtain ⟨hxt, hd⟩ := hr x hxv' hxrs'
  refine ⟨hxt, fun d hdm => ?_⟩
  obtain ⟨hdv, hdrs, hrk⟩ := hd d hdm
  have hdn : d ≠ n := fun h => hnv (h ▸ hdv)
  refine ⟨List.mem_cons_of_mem _ hdv, ?_, hrk⟩
  intro hc
  rcases List.mem_cons.mp hc with h | h
  · exact hdn h
  · exact hdrs h

theorem DfsInv_pop (g : List Node) (v rs : List Str) (n : Str) (nd : Node)
    (hlk : lookupNode g n = some nd) (hnv : n ∈ v)
    (hdeps : ∀ d ∈ nd.deps, d ∈ v ∧ d ∉ n :: rs)
    (hinv : DfsInv g v (n :: rs)) : DfsInv g v rs := by
  obtain ⟨r, hr⟩ := hinv
  refine ⟨fun x => if x = n then maxOver v r + 1 else r x, ?_⟩
  intro x hxv hxrs
  have hndeps : ndeps g n = nd.deps := by simp [ndeps, hlk]
  by_cases hxn : x = n
  · subst hxn
    refine ⟨mem_names_of_lookup g x nd hlk, ?_⟩
    intro d hdm
    rw [hndeps] at hdm
    obtain ⟨hdv, hdnrs⟩ := hdeps d hdm
    have hdn : d ≠ x := fun h => hdnrs (h ▸ List.mem_cons_self _ _)
    have hdrs : d ∉ rs := fun h => hdnrs (List.mem_cons_of_mem _ h)
    refine ⟨hdv, hdrs, ?_⟩
    simp only [hdn, if_false, if_pos rfl, if_true]
    exact Nat.lt_succ_of_le (le_maxOver v r d hdv)
  · have hx' : x ∉ n :: rs := by
      intro hc
      rcases List.mem_cons.mp hc with h | h
      · exact hxn h
      · exact hxrs h
    obtain ⟨hxt, hd⟩ := hr x hxv hx'
    refine ⟨hxt, fun d hdm => ?_⟩
    obtain ⟨hdv, hdnrs, hrk⟩ := hd d hdm
    have hdn : d ≠ n := fun h => hdnrs (h ▸ List.mem_cons_self _ _)
    have hdrs : d ∉ rs := fun h => hdnrs (List.mem_cons_of_mem _ h)
    refine ⟨hdv, hdrs, ?_⟩
    simp only [hdn, hxn, if_false]
    exact hrk

theorem filter_notMem_mono (l : List Str) (v v' : List Str) (hsub : v ⊆ v') :
    (l.filter (fun x => decide (x ∉ v'))).length ≤
      (l.filter (fun x => decide (x ∉ v))).length := by
  induction l with
  | nil => exact Nat.le_refl _
  | cons x rest ih =>
    by_cases hx' : x ∈ v'
    · have hdrop : decide (x ∉ v') = false := by simp [hx']
      by_cases hx : x ∈ v
      · simp only [List.filter_cons, hdrop, decide_eq_false (by simp [hx] : ¬ (x ∉ v))]
        exact ih
      · simp only [List.filter_cons, hdrop, decide_eq_true (by simp [hx] : (x ∉ v))]
        exact ih.trans (Nat.le_succ _)
    · have hx : x ∉ v := fun h => hx' (hsub h)
      simp only [List.filter_cons, decide_eq_true (by simp [hx'] : (x ∉ v')),
        decide_eq_true (by simp [hx] : (x ∉ v)), List.length_cons]
      exact Nat.succ_le_succ ih

theorem unvisitedCount_mono (g : List Node) (v v' : List Str) (hsub : v ⊆ v') :
    unvisitedCount g v' ≤ unvisitedCount g v :=
  filter_notMem_mono (names g) v v' hsub

theorem unvisitedCount_le (g : List Node) (v : List Str) :
    unvisitedCount g v ≤ g.length := by
  unfold unvisitedCount
  calc ((names g).filter _).length ≤ (names g).length := List.length_filter_le _ _
  _ = g.length := by simp [names]

theorem filter_notMem_strict (l : List Str) (v : List Str) (n : Str)
    (hn : n ∈ l) (hnv : n ∉ v) :
    (l.filter (fun x => decide (x ∉ n :: v))).length <
      (l.filter (fun x => decide (x ∉ v))).length := by
  induction l with
  | nil => cases hn
  | cons x rest ih =>
    by_cases hxn : x = n
    · subst hxn
      simp only [List.filter_cons, decide_eq_false (by simp : ¬ (x ∉ x :: v)),
        decide_eq_true (by simp [hnv] : (x ∉ v)), List.length_cons]
      exact Nat.lt_succ_of_le (filter_notMem_mono rest v (x :: v) (List.subset_cons_self _ _))
    · have hn' : n ∈ rest := by
        rcases List.mem_cons.mp hn with h | h
        · exact absurd h.symm hxn
        · exact h
      by_cases hxv : x ∈ v
      · simp only [List.filter_cons, decide_eq_false (by simp [hxv] : ¬ (x ∉ v)),
          decide_eq_false (by simp [List.mem_cons_of_mem, hxv] : ¬ (x ∉ n :: v))]
        exact ih hn'
      · have hxnv : x ∉ n :: v := by
          intro hc
          rcases List.mem_cons.mp hc with h | h
          · exact hxn h
          · exact hxv h
        simp only [List.filter_cons, decide_eq_true (by simp [hxv] : (x ∉ v)),
          decide_eq_true (by simp [hxnv] : (x ∉ n :: v)), List.length_cons]
        exact Nat.succ_lt_succ (ih hn')

theorem unvisitedCount_strict (g : List Node) (v : List Str) (n : Str)
    (hn : n ∈ names g) (hnv : n ∉ v) :
    unvisitedCount g (n :: v) < unvisitedCount g v :=
  filter_notMem_strict (names g) v n hn hnv

theorem stack_cycle (g : List Node) (n d : Str) (rs : List Str)
    (hchain : List.Chain' (flipEdge g) (n :: rs))
    (hd : d ∈ n :: rs) (hedge : edge g n d) : HasCycle g := by
  rcases List.mem_cons.mp hd with h | h
  · subst h
    exact ⟨d, [], List.Chain.cons hedge List.Chain.nil⟩
  · obtain ⟨p, q, rfl⟩ := List.append_of_mem h
    have hrev : List.Chain' (edge g) ((n :: (p ++ d :: q)).reverse) :=
      List.chain'_reverse.mpr hchain
    have heq : (n :: (p ++ d :: q)).reverse = q.reverse ++ (d :: (p.reverse ++ [n])) := by
      simp [List.reverse_cons, List.reverse_append, List.append_assoc]
    rw [heq] at hrev
    have hsuf : List.Chain' (edge g) (d :: (p.reverse ++ [n])) :=
      List.Chain'.suffix hrev (List.suffix_append _ _)
    have hfull : List.Chain' (edge g) ((d :: (p.reverse ++ [n])) ++ [d]) := by
      rw [List.chain'_append]
      refine ⟨hsuf, List.chain'_singleton _, ?_⟩
      intro x hx y hy
      have hx' : x = n := by
        have : (d :: (p.reverse ++ [n])).getLast? = some n := by
          rw [show d :: (p.reverse ++ [n]) = (d :: p.reverse) ++ [n] by simp]
          exact List.getLast?_concat _
        rw [this] at hx
        exact (Option.some_inj.mp hx).symm
      have hy' : y = d := by simpa using hy.symm
      subst hx'; subst hy'
      exact hedge
    refine ⟨d, p.reverse ++ [n], ?_⟩
    rw [List.cons_append] at hfull
    exact hfull

theorem edge_rank (g : List Node) (r : Str → Nat)
    (hr : ∀ nd ∈ g, ∀ d ∈ nd.deps, d ∈ names g → r d < r nd.fieldName)
    (a b : Str) (he : edge g a b) (hb : b ∈ names g) : r b < r a := by
  obtain ⟨nd, hm, hn, hd⟩ := edge_elim g a b he
  have := hr nd hm b hd hb
  rwa [hn] at this

theorem chain_rank_lt (g : List Node) (r : Str → Nat)
    (hr : ∀ nd ∈ g, ∀ d ∈ nd.deps, d ∈ names g → r d < r nd.fieldName) :
    ∀ (l : List Str) (x b : Str), List.Chain (edge g) x l → l.getLast? = some b →
      b ∈ names g → r b < r x := by
  intro l
  induction l with
  | nil => intro x b _ hl; cases hl
  | cons y ys ih =>
    intro x b hc hl hb
    cases hc with
    | cons hxy hys =>
      cases ys with
      | nil =>
        have hby : b = y := by simpa using hl.symm
        subst hby
        exact edge_rank g r hr x b hxy hb
      | cons z zs =>
        have hy : y ∈ names g := by
          cases hys with
          | cons hyz _ => exact edge_source_mem g y z hyz
        have h1 : r b < r y := ih y b hys (by simpa using hl) hb
        exact h1.trans (edge_rank g r hr x y hxy hy)

theorem rank_no_cycle (g : List Node) (r : Str → Nat)
    (hr : ∀ nd ∈ g, ∀ d ∈ nd.deps, d ∈ names g → r d < r nd.fieldName) :
    ¬ HasCycle g := by
  rintro ⟨a, l, hc⟩
  have hlast : (l ++ [a]).getLast? = some a := List.getLast?_concat _
  have ha : a ∈ names g := by
    cases hl : l ++ [a] with
    | nil => simp at hl
    | cons h t =>
      rw [hl] at hc
      cases hc with
      | cons hah _ => exact edge_source_mem g a h hah
  exact absurd (chain_rank_lt g r hr (l ++ [a]) a a hc hlast ha) (lt_irrefl _)

theorem checkDeps_error (g : List Node) (fuel : Nat) (rs : List Str) (n : Str)
    (deps : List Str) (e : Err) :
    checkDeps g fuel rs n deps (Except.error e) = Except.error e := by
  induction deps with
  | nil => rfl
  | cons d rest ih => rw [checkDeps_cons]; exact ih

theorem cdGood (g : List Node) (fuel : Nat) (hcc : CCgood g fuel) :
    ∀ (deps : List Str) (v rs : List Str) (n : Str) (nd : Node),
      lookupNode g n = some nd → deps ⊆ nd.deps →
      rs ⊆ v → n ∈ v → DfsInv g v (n :: rs) →
      List.Chain' (flipEdge g) (n :: rs) →
      unvisitedCount g v < fuel →
      (∀ d ∈ nd.deps, d ∈ deps ∨ (d ∈ v ∧ d ∉ n :: rs)) →
      CDres g v rs (checkDeps g fuel rs n deps (Except.ok v)) := by
  intro deps
  induction deps with
  | nil =>
    intro v rs n nd hlk hsub hrs hnv hinv hchain hcount hall
    rw [checkDeps_nil]
    refine ⟨?_, ?_, ?_, ?_⟩
    · intro v' hv'
      have hvv : v = v' := by injection hv'
      subst hvv
      refine ⟨fun x hx => hx, ?_⟩
      refine DfsInv_pop g v rs n nd hlk hnv ?_ hinv
      intro d hd
      rcases hall d hd with h | h
      · cases h
      · exact h
    · intro a b h; exact Except.noConfusion h
    · intro x h; exact Except.noConfusion h
    · intro h; exact Except.noConfusion h
  | cons d rest ih =>
    intro v rs n nd hlk hsub hrs hnv hinv hchain hcount hall
    have hdmem : d ∈ nd.deps := hsub (List.mem_cons_self _ _)
    have hrest : rest ⊆ nd.deps := fun x hx => hsub (List.mem_cons_of_mem _ hx)
    have hedge : edge g n d := edge_of_lookup g n nd d hlk hdmem
    rw [checkDeps_cons]
    by_cases hdv : d ∈ v
    · by_cases hdrs : d ∈ n :: rs
      · simp only [if_pos hdv, if_pos hdrs, checkDeps_error]
        refine ⟨?_, ?_, ?_, ?_⟩
        · intro v' h; exact Except.noConfusion h
        · intro a b h
          have he : Err.circular n d = Err.circular a b := by injection h
          have han : a = n := by injection he with h1 h2; exact h1.symm
          have hbd : b = d := by injection he with h1 h2; exact h2.symm
          subst han; subst hbd
          exact ⟨hedge, stack_cycle g a b rs hchain hdrs hedge⟩
        · intro x h
          have he : Err.circular n d = Err.unbound x := by injection h
          exact Err.noConfusion he
        · intro h
          have he : Err.circular n d = Err.fuelOut := by injection h
          exact Err.noConfusion he
      · simp only [if_pos hdv, if_neg hdrs]
        apply ih v rs n nd hlk hrest hrs hnv hinv hchain hcount
        intro d' hd'
        rcases hall d' hd' with hmem | hok
        · rcases List.mem_cons.mp hmem with h | h
          · subst h; exact Or.inr ⟨hdv, hdrs⟩
          · exact Or.inl h
        · exact Or.inr hok
    · simp only [if_neg hdv]
      have hnrsv : n :: rs ⊆ v := List.cons_subset.mpr ⟨hnv, hrs⟩
      have hchain2 : List.Chain' (flipEdge g) (d :: n :: rs) :=
        List.chain'_cons.mpr ⟨hedge, hchain⟩
      have hcc' := hcc v (n :: rs) d hnrsv hdv hinv hchain2 hcount
      obtain ⟨hok, hcirc, hunb, hfuel⟩ := hcc'
      cases hres : checkCycle g fuel v (n :: rs) d with
      | error e =>
        rw [checkDeps_error]
        refine ⟨?_, ?_, ?_, ?_⟩
        · intro v' h; exact Except.noConfusion h
        · intro a b h; exact hcirc a b (hres.trans h)
        · intro x h
          obtain ⟨hnone, hcase⟩ := hunb x (hres.trans h)
          refine ⟨hnone, ?_⟩
          rcases hcase with hxd | hm
          · exact ⟨n, hxd ▸ hedge⟩
          · exact hm
        · intro h; exact hfuel (hres.trans h)
      | ok v2 =>
        obtain ⟨hv2, hdv2, hinv2⟩ := hok v2 hres
        have hdnrs : d ∉ n :: rs := fun h => hdv (hnrsv h)
        have ihres := ih v2 rs n nd hlk hrest (hrs.trans hv2) (hv2 hnv) hinv2 hchain
          (Nat.lt_of_le_of_lt (unvisitedCount_mono g v v2 hv2) hcount) ?hall2
        case hall2 =>
          intro d' hd'
          rcases hall d' hd' with hmem | hokk
          · rcases List.mem_cons.mp hmem with h | h
            · subst h; exact Or.inr ⟨hdv2, hdnrs⟩
            · exact Or.inl h
          · exact Or.inr ⟨hv2 hokk.1, hokk.2⟩
        obtain ⟨iok, icirc, iunb, ifuel⟩ := ihres
        refine ⟨?_, icirc, iunb, ifuel⟩
        intro v' h
        obtain ⟨hsub', hinv'⟩ := iok v' h
        exact ⟨hv2.trans hsub', hinv'⟩

theorem ccGood (g : List Node) : ∀ fuel, CCgood g fuel := by
  intro fuel
  induction fuel with
  | zero =>
    intro v rs n _ _ _ _ hcount
    exact absurd hcount (Nat.not_lt_zero _)
  | succ fuel ihf =>
    intro v rs n hrs hnv hinv hchain hcount
    rw [checkCycle_succ]
    cases hlk : lookupNode g n with
    | none =>
      refine ⟨?_, ?_, ?_, ?_⟩
      · intro v' h; exact Except.noConfusion h
      · intro a b h
        have he : Err.unbound n = Err.circular a b := by injection h
        exact Err.noConfusion he
      · intro x h
        have he : Err.unbound n = Err.unbound x := by injection h
        have hx : x = n := by injection he with h1; exact h1.symm
        subst hx
        exact ⟨hlk, Or.inl rfl⟩
      · intro h
        have he : Err.unbound n = Err.fuelOut := by injection h
        exact Err.noConfusion he
    | some nd =>
      have hnn : n ∈ names g := mem_names_of_lookup g n nd hlk
      have hcount2 : unvisitedCount g (n :: v) < fuel := by
        have h1 : unvisitedCount g (n :: v) < unvisitedCount g v :=
          unvisitedCount_strict g v n hnn hnv
        have h2 : unvisitedCount g v ≤ fuel := Nat.lt_succ_iff.mp hcount
        exact Nat.lt_of_lt_of_le h1 h2
      have hcd := cdGood g fuel ihf nd.deps (n :: v) rs n nd hlk (fun x hx => hx)
        (fun x hx => List.mem_cons_of_mem _ (hrs hx)) (List.mem_cons_self _ _)
        (DfsInv_push g v rs n hnv hinv) hchain hcount2
        (fun d hd => Or.inl hd)
      obtain ⟨hok, hcirc, hunb, hfuel⟩ := hcd
      refine ⟨?_, hcirc, ?_, hfuel⟩
      · intro v' h
        obtain ⟨hsub', hinv'⟩ := hok v' h
        exact ⟨fun x hx => hsub' (List.mem_cons_of_mem _ hx),
          hsub' (List.mem_cons_self _ _), hinv'⟩
      · intro x h
        obtain ⟨hnone, hm⟩ := hunb x h
        exact ⟨hnone, Or.inr hm⟩

theorem lookupNode_self (g : List Node) (hnodup : (names g).Nodup) (nd : Node)
    (hm : nd ∈ g) : lookupNode g nd.fieldName = some nd := by
  induction g with
  | nil => cases hm
  | cons h t ih =>
    have hnodup' : (names t).Nodup := by
      have := hnodup
      simp only [names, List.map_cons, List.nodup_cons] at this
      exact this.2
    rcases List.mem_cons.mp hm with rfl | hm'
    · simp [lookupNode, List.find?]
    · have hne : ¬ (h.fieldName == nd.fieldName) = true := by
        simp only [beq_iff_eq]
        intro he
        have hmem : nd.fieldName ∈ names t := List.mem_map_of_mem _ hm'
        have : h.fieldName ∉ names t := by
          have := hnodup
          simp only [names, List.map_cons, List.nodup_cons] at this
          exact this.1
        exact this (he ▸ hmem)
      simp only [lookupNode, List.find?, hne]
      exact ih hnodup' hm'

theorem DfsInv_nil (g : List Node) : DfsInv g [] [] :=
  ⟨fun _ => 0, fun x hx => absurd hx (List.not_mem_nil x)⟩

theorem detectGo_none (g : List Node) :
    ∀ (order : List Str) (v : List Str), DfsInv g v [] →
      detectGo g (g.length + 1) order v = none →
      ∃ v', v ⊆ v' ∧ DfsInv g v' [] ∧ ∀ x ∈ order, x ∈ v' := by
  intro order
  induction order with
  | nil =>
    intro v hinv _
    exact ⟨v, fun x hx => hx, hinv, by simp⟩
  | cons x rest ih =>
    intro v hinv hdet
    by_cases hxv : x ∈ v
    · rw [show detectGo g (g.length + 1) (x :: rest) v
          = detectGo g (g.length + 1) rest v by simp [detectGo, hxv]] at hdet
      obtain ⟨v', hsub, hinv', hmem⟩ := ih v hinv hdet
      refine ⟨v', hsub, hinv', ?_⟩
      intro y hy
      rcases List.mem_cons.mp hy with rfl | hy'
      · exact hsub hxv
      · exact hmem y hy'
    · have hgo : detectGo g (g.length + 1) (x :: rest) v =
          match checkCycle g (g.length + 1) v [] x with
          | Except.error e => some e
          | Except.ok v2 => detectGo g (g.length + 1) rest v2 := by
        simp [detectGo, hxv]
      rw [hgo] at hdet
      have hcc := ccGood g (g.length + 1) v [] x (by simp) hxv hinv
        (List.chain'_singleton _) (Nat.lt_succ_of_le (unvisitedCount_le g v))
      obtain ⟨hok, _, _, _⟩ := hcc
      cases hres : checkCycle g (g.length + 1) v [] x with
      | error e => rw [hres] at hdet; cases hdet
      | ok v2 =>
        rw [hres] at hdet
        obtain ⟨hv2, hxv2, hinv2⟩ := hok v2 hres
        obtain ⟨v', hsub, hinv', hmem⟩ := ih v2 hinv2 hdet
        refine ⟨v', hv2.trans hsub, hinv', ?_⟩
        intro y hy
        rcases List.mem_cons.mp hy with rfl | hy'
        · exact hsub hxv2
        · exact hmem y hy'

theorem detectGo_some (g : List Node) (e : Err) :
    ∀ (order : List Str) (v : List Str), DfsInv g v [] →
      (∀ x ∈ order, x ∈ names g) →
      detectGo g (g.length + 1) order v = some e →
      (∀ a b, e = Err.circular a b → edge g a b ∧ HasCycle g) ∧
      (∀ x, e = Err.unbound x → lookupNode g x = none ∧ ∃ m, edge g m x) ∧
      e ≠ Err.fuelOut := by
  intro order
  induction order with
  | nil => intro v _ _ hdet; cases hdet
  | cons x rest ih =>
    intro v hinv hord hdet
    have hord' : ∀ y ∈ rest, y ∈ names g := fun y hy => hord y (List.mem_cons_of_mem _ hy)
    by_cases hxv : x ∈ v
    · rw [show detectGo g (g.length + 1) (x :: rest) v
          = detectGo g (g.length + 1) rest v by simp [detectGo, hxv]] at hdet
      exact ih v hinv hord' hdet
    · have hgo : detectGo g (g.length + 1) (x :: rest) v =
          match checkCycle g (g.length + 1) v [] x with
          | Except.error e' => some e'
          | Except.ok v2 => detectGo g (g.length + 1) rest v2 := by
        simp [detectGo, hxv]
      rw [hgo] at hdet
      have hcc := ccGood g (g.length + 1) v [] x (by simp) hxv hinv
        (List.chain'_singleton _) (Nat.lt_succ_of_le (unvisitedCount_le g v))
      obtain ⟨hok, hcirc, hunb, hfuel⟩ := hcc
      cases hres : checkCycle g (g.length + 1) v [] x with
      | error e' =>
        rw [hres] at hdet
        have hee : e' = e := by injection hdet
        subst hee
        refine ⟨fun a b hab => hcirc a b (hres.trans (congrArg _ hab)), ?_, ?_⟩
        · intro y hy
          obtain ⟨hnone, hcase⟩ := hunb y (hres.trans (congrArg _ hy))
          refine ⟨hnone, ?_⟩
          rcases hcase with rfl | hm
          · exact absurd (hord y (List.mem_cons_self _ _)) (fun hmm =>
              lookup_ne_none_of_mem_names g y hmm hnone)
          · exact hm
        · intro hy
          exact hfuel (hres.trans (congrArg _ hy))
      | ok v2 =>
        rw [hres] at hdet
        obtain ⟨hv2, hxv2, hinv2⟩ := hok v2 hres
        exact ih v2 hinv2 hord' hdet

theorem detect_none_props (g : List Node) (order : List Str)
    (hord : ∀ nd ∈ g, nd.fieldName ∈ order)
    (hnodup : (names g).Nodup)
    (hdet : detectCircularDependencies order g = none) :
    (∀ nd ∈ g, ∀ d ∈ nd.deps, d ∈ names g) ∧
    (∃ r : Str → Nat, ∀ nd ∈ g, ∀ d ∈ nd.deps, r d < r nd.fieldName) := by
  obtain ⟨v', _, ⟨r, hr⟩, hmem⟩ :=
    detectGo_none g order [] (DfsInv_nil g) hdet
  have hnode : ∀ nd ∈ g, ∀ d ∈ nd.deps, d ∈ v' ∧ r d < r nd.fieldName := by
    intro nd hm d hd
    have hx : nd.fieldName ∈ v' := hmem _ (hord nd hm)
    obtain ⟨_, hdeps⟩ := hr nd.fieldName hx (List.not_mem_nil _)
    have hnd : ndeps g nd.fieldName = nd.deps := by
      simp [ndeps, lookupNode_self g hnodup nd hm]
    obtain ⟨hdv, _, hrk⟩ := hdeps d (hnd ▸ hd)
    exact ⟨hdv, hrk⟩
  constructor
  · intro nd hm d hd
    obtain ⟨hdv, _⟩ := hnode nd hm d hd
    exact (hr d hdv (List.not_mem_nil _)).1
  · exact ⟨r, fun nd hm d hd => (hnode nd hm d hd).2⟩

theorem detect_some_props (g : List Node) (order : List Str) (e : Err)
    (hord : ∀ x ∈ order, x ∈ names g)
    (hdet : detectCircularDependencies order g = some e) :
    (∀ a b, e = Err.circular a b → edge g a b ∧ HasCycle g) ∧
    (∀ x, e = Err.unbound x → lookupNode g x = none ∧ ∃ m, edge g m x) ∧
    e ≠ Err.fuelOut :=
  detectGo_some g e order [] (DfsInv_nil g) hord hdet

theorem detect_some_of_missing (g : List Node) (order : List Str)
    (hord : ∀ nd ∈ g, nd.fieldName ∈ order) (hnodup : (names g).Nodup)
    (n₀ : Node) (d₀ : Str) (hn₀ : n₀ ∈ g) (hd₀ : d₀ ∈ n₀.deps)
    (hmiss : d₀ ∉ names g) :
    ∃ e, detectCircularDependencies order g = some e := by
  cases hdet : detectCircularDependencies order g with
  | some e => exact ⟨e, rfl⟩
  | none =>
    obtain ⟨hclosed, _⟩ := detect_none_props g order hord hnodup hdet
    exact absurd (hclosed n₀ hn₀ d₀ hd₀) hmiss

theorem detect_some_of_cycle (g : List Node) (order : List Str)
    (hord : ∀ nd ∈ g, nd.fieldName ∈ order) (hnodup : (names g).Nodup)
    (hcyc : HasCycle g) :
    ∃ e, detectCircularDependencies order g = some e := by
  cases hdet : detectCircularDependencies order g with
  | some e => exact ⟨e, rfl⟩
  | none =>
    obtain ⟨_, r, hr⟩ := detect_none_props g order hord hnodup hdet
    exact absurd hcyc (rank_no_cycle g r (fun nd hm d hd _ => hr nd hm d hd))

theorem Load_detect_some (load : LoadFn) (reorder : List Node → List Node)
    (mapOrder detectOrder : List Str) (fields : List FieldSpec) (e : Err)
    (h : detectCircularDependencies detectOrder (buildNodes mapOrder fields) = some e) :
    Load load reorder mapOrder detectOrder fields =
      (⟨initRec fields, []⟩, some (LoadErr.plain e)) := by
  unfold Load
  simp only []
  rw [h]

/-- C4: for every record whose tracked-field dependency graph (every
dependency naming a tracked field) contains a cycle of length at least two,
`Load` fails with a circular-dependency error naming two fields joined by an
edge of the graph (the detected back-edge), invokes no adapter, and returns
the untouched zero-valued record — under every iteration order the runtime
may choose. -/
theorem C4_cycle_rejected (load : LoadFn) (reorder : List Node → List Node)
    (mapOrder detectOrder : List Str) (fields : List FieldSpec)
    (hnodup : (names (buildNodes mapOrder fields)).Nodup)
    (hord : detectOrder.Perm (names (buildNodes mapOrder fields)))
    (hclosed : ∀ nd ∈ buildNodes mapOrder fields, ∀ d ∈ nd.deps,
      d ∈ names (buildNodes mapOrder fields))
    (hcyc : ∃ a l, l ≠ [] ∧
      List.Chain (edge (buildNodes mapOrder fields)) a (l ++ [a])) :
    ∃ a b, edge (buildNodes mapOrder fields) a b ∧
      Load load reorder mapOrder detectOrder fields =
        (⟨initRec fields, []⟩, some (LoadErr.plain (Err.circular a b))) := by
  obtain ⟨a0, l0, _, hch⟩ := hcyc
  have hcyc' : HasCycle (buildNodes mapOrder fields) := ⟨a0, l0, hch⟩
  have hmemord : ∀ nd ∈ buildNodes mapOrder fields, nd.fieldName ∈ detectOrder :=
    fun nd hm => hord.mem_iff.mpr (List.mem_map_of_mem _ hm)
  obtain ⟨e, hdet⟩ := detect_some_of_cycle _ detectOrder hmemord hnodup hcyc'
  have hordmem : ∀ x ∈ detectOrder, x ∈ names (buildNodes mapOrder fields) :=
    fun x hx => hord.mem_iff.mp hx
  obtain ⟨hcirc, hunb, hfuel⟩ := detect_some_props _ detectOrder e hordmem hdet
  cases e with
  | circular a b =>
    obtain ⟨hedge, _⟩ := hcirc a b rfl
    exact ⟨a, b, hedge, Load_detect_some load reorder mapOrder detectOrder fields _ hdet⟩
  | unbound x =>
    obtain ⟨hnone, m, hedge⟩ := hunb x rfl
    obtain ⟨nd, hm, _, hx⟩ := edge_elim _ m x hedge
    exact absurd (hclosed nd hm x hx)
      (fun hmm => lookup_ne_none_of_mem_names _ x hmm hnone)
  | fuelOut => exact absurd rfl hfuel

/-- Witness for `C4_cycle_rejected`: the two-cycle `A -> B -> A`. -/
theorem C4_cycle_rejected_witness :
    ∃ a b, edge (buildNodes [str "env"] fieldsC4) a b ∧
      Load cLoadOk id [str "env"] [str "A", str "B"] fieldsC4 =
        (⟨initRec fieldsC4, []⟩, some (LoadErr.plain (Err.circular a b))) :=
  C4_cycle_rejected cLoadOk id [str "env"] [str "A", str "B"] fieldsC4
    (by decide) (by decide) (by decide)
    ⟨str "A", [str "B"], by decide,
      List.Chain.cons (by decide) (List.Chain.cons (by decide) List.Chain.nil)⟩

/-- C7: for every record in which a tracked field's tag references a name
that is not a field of the record (hence tracked by no adapter), and which is
otherwise well-formed (no cycle among the tracked dependencies, the missing
name being the only unbound one), `Load` fails with an unbound-reference
error naming the missing field. -/
theorem C7_unbound_reference (load : LoadFn) (reorder : List Node → List Node)
    (mapOrder detectOrder : List Str) (fields : List FieldSpec)
    (n₀ : Node) (d₀ : Str)
    (hnodup : (names (buildNodes mapOrder fields)).Nodup)
    (hord : detectOrder.Perm (names (buildNodes mapOrder fields)))
    (hn₀ : n₀ ∈ buildNodes mapOrder fields) (hd₀ : d₀ ∈ n₀.deps)
    (hmiss : d₀ ∉ names (buildNodes mapOrder fields))
    (huniq : ∀ nd ∈ buildNodes mapOrder fields, ∀ x ∈ nd.deps,
      x ∉ names (buildNodes mapOrder fields) → x = d₀)
    (hrank : ∃ r : Str → Nat, ∀ nd ∈ buildNodes mapOrder fields, ∀ d ∈ nd.deps,
      d ∈ names (buildNodes mapOrder fields) → r d < r nd.fieldName) :
    Load load reorder mapOrder detectOrder fields =
      (⟨initRec fields, []⟩, some (LoadErr.plain (Err.unbound d₀))) := by
  have hmemord : ∀ nd ∈ buildNodes mapOrder fields, nd.fieldName ∈ detectOrder :=
    fun nd hm => hord.mem_iff.mpr (List.mem_map_of_mem _ hm)
  obtain ⟨e, hdet⟩ :=
    detect_some_of_missing _ detectOrder hmemord hnodup n₀ d₀ hn₀ hd₀ hmiss
  have hordmem : ∀ x ∈ detectOrder, x ∈ names (buildNodes mapOrder fields) :=
    fun x hx => hord.mem_iff.mp hx
  obtain ⟨hcirc, hunb, hfuel⟩ := detect_some_props _ detectOrder e hordmem hdet
  cases e with
  | circular a b =>
    obtain ⟨_, hcy⟩ := hcirc a b rfl
    obtain ⟨r, hr⟩ := hrank
    exact absurd hcy (rank_no_cycle _ r hr)
  | unbound x =>
    obtain ⟨hnone, m, hedge⟩ := hunb x rfl
    obtain ⟨nd, hm, _, hx⟩ := edge_elim _ m x hedge
    have hxnames : x ∉ names (buildNodes mapOrder fields) := by
      intro hmm
      exact lookup_ne_none_of_mem_names _ x hmm hnone
    have hxd : x = d₀ := huniq nd hm x hx hxnames
    subst hxd
    exact Load_detect_some load reorder mapOrder detectOrder fields _ hdet
  | fuelOut => exact absurd rfl hfuel

/-- Witness for `C7_unbound_reference`: the single field `A` with tag
`@Missing`. -/
theorem C7_unbound_reference_witness :
    Load cLoadOk id [str "env"] [str "A"] fieldsC7 =
      (⟨initRec fieldsC7, []⟩, some (LoadErr.plain (Err.unbound (str "Missing")))) :=
  C7_unbound_reference cLoadOk id [str "env"] [str "A"] fieldsC7
    ⟨str "A", str "@Missing", str "env", [str "Missing"]⟩ (str "Missing")
    (by decide) (by decide) (by decide) (by decide) (by decide) (by decide)
    ⟨fun _ => 0, by decide⟩

/-- C6 counterexample: field `A` is tagged `@X` where `X` is a struct field
with no annotation (untracked).  `Load` does not defer: it fails during
`detectCircularDependencies`, before the scheduling phase, with an
unbound-reference error, invoking no adapter — even though the resolver would
have resolved `@X` against the record (third conjunct). -/
theorem C6_counterexample :
    Load cLoadOk id [str "env"] [str "A"] fieldsC6 =
      (⟨initRec fieldsC6, []⟩, some (LoadErr.plain (Err.unbound (str "X")))) ∧
      lookupRec (initRec fieldsC6) (str "X") = some [] ∧
      resolveTag (initRec fieldsC6) (str "@X") = Except.ok [] := by
  refine ⟨by decide, by decide, by decide⟩

/-- C6 (amended): the scheduling-phase dependency check does treat any name
absent from the pending collection as satisfied (first conjunct) — in `Load`
this only ever applies to already-resolved fields, because a reference to an
untracked name makes `Load` fail at the cycle-detection gate, before any
scheduling, with a pre-scheduling error and no adapter invoked (second
conjunct). -/
theorem C6_untracked_treated_satisfied_but_gated :
    (∀ (pendingNames : List Str) (n : Node),
        (∀ d ∈ n.deps, d ∉ pendingNames) → isReady pendingNames n = true) ∧
    (∀ (load : LoadFn) (reorder : List Node → List Node)
        (mapOrder detectOrder : List Str) (fields : List FieldSpec)
        (n₀ : Node) (d₀ : Str),
        (names (buildNodes mapOrder fields)).Nodup →
        detectOrder.Perm (names (buildNodes mapOrder fields)) →
        n₀ ∈ buildNodes mapOrder fields → d₀ ∈ n₀.deps →
        d₀ ∉ names (buildNodes mapOrder fields) →
        ∃ e, Load load reorder mapOrder detectOrder fields =
          (⟨initRec fields, []⟩, some (LoadErr.plain e))) := by
  constructor
  · intro pendingNames n h
    simp only [isReady, List.all_eq_true]
    intro d hd
    simpa using h d hd
  · intro load reorder mapOrder detectOrder fields n₀ d₀ hnodup hord hn₀ hd₀ hmiss
    have hmemord : ∀ nd ∈ buildNodes mapOrder fields, nd.fieldName ∈ detectOrder :=
      fun nd hm => hord.mem_iff.mpr (List.mem_map_of_mem _ hm)
    obtain ⟨e, hdet⟩ :=
      detect_some_of_missing _ detectOrder hmemord hnodup n₀ d₀ hn₀ hd₀ hmiss
    exact ⟨e, Load_detect_some load reorder mapOrder detectOrder fields _ hdet⟩

/-- Witness for `C6_untracked_treated_satisfied_but_gated`. -/
theorem C6_untracked_treated_satisfied_but_gated_witness :
    isReady [str "B"] ⟨str "A", str "@X", str "env", [str "X"]⟩ = true ∧
    ∃ e, Load cLoadOk id [str "env"] [str "A"] fieldsC6 =
      (⟨initRec fieldsC6, []⟩, some (LoadErr.plain e)) :=
  ⟨C6_untracked_treated_satisfied_but_gated.1 [str "B"]
      ⟨str "A", str "@X", str "env", [str "X"]⟩ (by decide),
    C6_untracked_treated_satisfied_but_gated.2 cLoadOk id [str "env"] [str "A"]
      fieldsC6 ⟨str "A", str "@X", str "env", [str "X"]⟩ (str "X")
      (by decide) (by decide) (by decide) (by decide) (by decide)⟩


theorem keysOf_setField (cv : List (Str × Str)) (k v : Str) :
    keysOf (setField cv k v) = keysOf cv := by
  have htail : ∀ a b : Str, (a, b) ∈ cv → (if a = k then (a, v) else (a, b)).1 = a := by
    intro a b _
    by_cases hab : a = k <;> simp [hab]
  induction cv with
  | nil => rfl
  | cons p rest ih =>
    have htail' : ∀ a b : Str, (a, b) ∈ rest → (if a = k then (a, v) else (a, b)).1 = a := by
      intro a b _
      by_cases hab : a = k <;> simp [hab]
    simp only [setField, keysOf, List.map_cons] at ih ⊢
    by_cases h : (p.1 == k) = true <;> (simp [h]; exact htail')

theorem lookupRec_isSome_iff (cv : List (Str × Str)) (k : Str) :
    (lookupRec cv k).isSome = true ↔ k ∈ keysOf cv := by
  unfold lookupRec keysOf
  constructor
  · intro h
    cases hf : cv.find? (fun p => p.1 == k) with
    | none => rw [hf] at h; simp at h
    | some p =>
      have hp := List.find?_some hf
      have hm := List.mem_of_find?_eq_some hf
      have he : p.1 = k := by simpa using hp
      exact he ▸ List.mem_map_of_mem _ hm
  · intro hk
    obtain ⟨p, hp, he⟩ := List.mem_map.mp hk
    have hs : (cv.find? (fun p => p.1 == k)).isSome := by
      rw [List.find?_isSome]
      exact ⟨p, hp, by simp [he]⟩
    obtain ⟨q, hq⟩ := Option.isSome_iff_exists.mp hs
    rw [hq]
    rfl

theorem resolvePart_ok_of_keys (cv : List (Str × Str)) (part : Str)
    (h : (match part with
          | '@' :: rest => (keysOf cv).contains rest
          | _ => true) = true) :
    ∃ s, resolvePart cv part = Except.ok s := by
  cases part with
  | nil => exact ⟨_, rfl⟩
  | cons c rest =>
    by_cases hc : c = '@'
    · subst hc
      have hmem : rest ∈ keysOf cv := by simpa using h
      have hsome := (lookupRec_isSome_iff cv rest).mpr hmem
      obtain ⟨v, hv⟩ := Option.isSome_iff_exists.mp hsome
      exact ⟨v, by simp [resolvePart, hv]⟩
    · refine ⟨applyEscapes (c :: rest) false, ?_⟩
      unfold resolvePart
      split
      · rename_i fn heq
        injection heq with h1 h2
        exact absurd h1 hc
      · rfl

theorem resolveParts_ok (cv : List (Str × Str)) :
    ∀ ps : List Str, (∀ p ∈ ps, ∃ s, resolvePart cv (trimStr p) = Except.ok s) →
      ∃ s, resolveParts cv ps = Except.ok s := by
  intro ps
  induction ps with
  | nil => intro _; exact ⟨[], rfl⟩
  | cons p rest ih =>
    intro hparts
    obtain ⟨s1, hs1⟩ := hparts p (List.mem_cons_self _ _)
    obtain ⟨s2, hs2⟩ := ih (fun q hq => hparts q (List.mem_cons_of_mem _ hq))
    exact ⟨s1 ++ s2, by rw [resolveParts, hs1, hs2]⟩

theorem resolveTag_ok_of_resolveOk (cv : List (Str × Str)) (tag : Str)
    (h : resolveOk (keysOf cv) tag = true) :
    ∃ s, resolveTag cv tag = Except.ok s := by
  unfold resolveOk at h
  unfold resolveTag
  by_cases hb : containsBars tag = true
  · rw [if_pos hb] at h ⊢
    rw [List.all_eq_true] at h
    refine resolveParts_ok cv _ ?_
    intro p hp
    exact resolvePart_ok_of_keys cv (trimStr p)
      (h (trimStr p) (List.mem_map_of_mem _ hp))
  · rw [if_neg hb] at h ⊢
    rw [List.all_eq_true] at h
    exact resolvePart_ok_of_keys cv tag (h tag (List.mem_cons_self _ _))

theorem keysOf_initRec (fields : List FieldSpec) :
    keysOf (initRec fields) = fieldNames fields := by
  induction fields with
  | nil => rfl
  | cons f rest ih =>
    simp only [initRec, keysOf, fieldNames, List.map_cons] at ih ⊢
    rw [ih]

theorem TopoOrdered_append (g : List Node) :
    ∀ (log done : List Str) (f : Str), TopoOrdered g done log →
      (∀ nd ∈ g, nd.fieldName = f → ∀ d ∈ nd.deps, d ∈ done ++ log) →
      TopoOrdered g done (log ++ [f]) := by
  intro log
  induction log with
  | nil =>
    intro done f _ hdeps
    refine ⟨fun nd hm he d hd => ?_, trivial⟩
    simpa using hdeps nd hm he d hd
  | cons x rest ih =>
    intro done f htopo hdeps
    obtain ⟨hx, hrest⟩ := htopo
    refine ⟨hx, ih (done ++ [x]) f hrest ?_⟩
    intro nd hm he d hd
    have := hdeps nd hm he d hd
    simpa [List.append_assoc] using this

theorem TopoOrdered_split (g : List Node) :
    ∀ (l1 : List Str) (done log : List Str) (f : Str) (l2 : List Str),
      TopoOrdered g done log → log = l1 ++ f :: l2 →
      ∀ nd ∈ g, nd.fieldName = f → ∀ d ∈ nd.deps, d ∈ done ++ l1 := by
  intro l1
  induction l1 with
  | nil =>
    intro done log f l2 htopo heq
    subst heq
    intro nd hm he d hd
    simpa using htopo.1 nd hm he d hd
  | cons x rest ih =>
    intro done log f l2 htopo heq
    subst heq
    obtain ⟨_, htail⟩ := htopo
    intro nd hm he d hd
    have := ih (done ++ [x]) (rest ++ f :: l2) f l2 htail rfl nd hm he d hd
    simpa [List.append_assoc] using this

theorem node_unique (g : List Node) (hnodup : (names g).Nodup)
    (n nd : Node) (hn : n ∈ g) (hnd : nd ∈ g)
    (he : nd.fieldName = n.fieldName) : nd = n := by
  have h1 := lookupNode_self g hnodup n hn
  have h2 := lookupNode_self g hnodup nd hnd
  rw [he] at h2
  rw [h1] at h2
  injection h2 with h3
  exact h3.symm

theorem exists_min_rank (f : Node → Nat) :
    ∀ (l : List Node), l ≠ [] → ∃ n₀ ∈ l, ∀ m ∈ l, f n₀ ≤ f m := by
  intro l
  induction l with
  | nil => intro h; exact absurd rfl h
  | cons x rest ih =>
    intro _
    cases rest with
    | nil =>
      refine ⟨x, List.mem_cons_self _ _, ?_⟩
      intro m hm
      rcases List.mem_cons.mp hm with rfl | hm'
      · exact Nat.le_refl _
      · cases hm'
    | cons y ys =>
      obtain ⟨n₀, hn₀, hmin⟩ := ih (by simp)
      by_cases hle : f x ≤ f n₀
      · refine ⟨x, List.mem_cons_self _ _, ?_⟩
        intro m hm
        rcases List.mem_cons.mp hm with rfl | hm'
        · exact Nat.le_refl _
        · exact hle.trans (hmin m hm')
      · refine ⟨n₀, List.mem_cons_of_mem _ hn₀, ?_⟩
        intro m hm
        rcases List.mem_cons.mp hm with rfl | hm'
        · exact Nat.le_of_lt (Nat.lt_of_not_le hle)
        · exact hmin m hm'

theorem sublist_length_lt (l surv : List Node) (a : Node)
    (hs : surv.Sublist l) (ha : a ∈ l) (hna : a ∉ surv) :
    surv.length < l.length := by
  rcases Nat.lt_or_ge surv.length l.length with h | h
  · exact h
  · have heq : surv = l := hs.eq_of_length (Nat.le_antisymm hs.length_le h)
    exact absurd (heq ▸ ha) hna

theorem runPass_ok (g : List Node) (load : LoadFn) (fields : List FieldSpec)
    (hnodup : (names g).Nodup)
    (hclosed : ∀ nd ∈ g, ∀ d ∈ nd.deps, d ∈ names g)
    (hresolve : ∀ nd ∈ g, resolveOk (fieldNames fields) nd.tag = true)
    (hload : ∀ ln f t, ∃ v, load ln f t = Except.ok v) :
    ∀ (toProcess kept : List Node) (st : St),
      (∀ n ∈ kept ++ toProcess, n ∈ g) →
      (st.log ++ names (kept ++ toProcess)).Perm (names g) →
      TopoOrdered g [] st.log →
      keysOf st.record = fieldNames fields →
      ∃ kept' st',
        runPass load toProcess kept st = Except.ok (kept', st') ∧
        (∃ surv, kept' = kept ++ surv ∧ surv.Sublist toProcess) ∧
        (∀ n ∈ kept', n ∈ g) ∧
        (st'.log ++ names kept').Perm (names g) ∧
        TopoOrdered g [] st'.log ∧
        keysOf st'.record = fieldNames fields ∧
        (∀ n₀ ∈ toProcess, (∀ d ∈ n₀.deps, d ∉ names (kept ++ toProcess)) →
          n₀ ∉ kept') := by
  intro toProcess
  induction toProcess with
  | nil =>
    intro kept st hmem hperm htopo hkeys
    refine ⟨kept, st, rfl, ⟨[], by simp, List.nil_sublist _⟩, ?_, ?_, htopo, hkeys, ?_⟩
    · intro m hm; exact hmem m (by simpa using hm)
    · simpa using hperm
    · intro n₀ hn₀; cases hn₀
  | cons n rest ih =>
    intro kept st hmem hperm htopo hkeys
    have hpnodup : (names (kept ++ n :: rest)).Nodup := by
      have h1 : (st.log ++ names (kept ++ n :: rest)).Nodup :=
        (hperm.nodup_iff).mpr hnodup
      exact (List.nodup_append.mp h1).2.1
    have hknodup : (names kept ++ n.fieldName :: names rest).Nodup := by
      have : names (kept ++ n :: rest) = names kept ++ n.fieldName :: names rest := by
        simp [names]
      rwa [this] at hpnodup
    by_cases hready : isReady (names (kept ++ n :: rest)) n = true
    · have hng : n ∈ g := hmem n (by simp)
      have hro : resolveOk (keysOf st.record) n.tag = true := by
        rw [hkeys]; exact hresolve n hng
      obtain ⟨rtag, hrtag⟩ := resolveTag_ok_of_resolveOk st.record n.tag hro
      obtain ⟨v, hv⟩ := hload n.loaderName n.fieldName rtag
      have hdeplog : ∀ nd ∈ g, nd.fieldName = n.fieldName →
          ∀ d ∈ nd.deps, d ∈ ([] : List Str) ++ st.log := by
        intro nd hndg hname d hd
        have hnd : nd = n := node_unique g hnodup n nd hng hndg hname
        rw [hnd] at hd
        have hdg : d ∈ names g := hclosed n hng d hd
        have hnotp : d ∉ names (kept ++ n :: rest) := by
          have := (List.all_eq_true.mp hready) d hd
          simpa using this
        have hin : d ∈ st.log ++ names (kept ++ n :: rest) := hperm.mem_iff.mpr hdg
        rcases List.mem_append.mp hin with h | h
        · simpa using h
        · exact absurd h hnotp
      have hmem2 : ∀ m ∈ kept ++ rest, m ∈ g := by
        intro m hm
        refine hmem m ?_
        rcases List.mem_append.mp hm with h | h
        · exact List.mem_append.mpr (Or.inl h)
        · exact List.mem_append.mpr (Or.inr (List.mem_cons_of_mem _ h))
      have hperm2 : ((st.log ++ [n.fieldName]) ++ names (kept ++ rest)).Perm (names g) := by
        refine List.Perm.trans ?_ hperm
        have hnames1 : names (kept ++ rest) = names kept ++ names rest := by simp [names]
        have hnames2 : names (kept ++ n :: rest) =
            names kept ++ n.fieldName :: names rest := by simp [names]
        rw [hnames1, hnames2, List.append_assoc]
        exact List.Perm.append_left st.log
          (@List.perm_middle _ n.fieldName (names kept) (names rest)).symm
      have htopo2 : TopoOrdered g [] (st.log ++ [n.fieldName]) :=
        TopoOrdered_append g st.log [] n.fieldName htopo hdeplog
      have hkeys2 : keysOf (setField st.record n.fieldName v) = fieldNames fields := by
        rw [keysOf_setField]; exact hkeys
      obtain ⟨kept', st', heq, ⟨surv, hsurv, hsub⟩, hmem', hperm', htopo', hkeys', hproc'⟩ :=
        ih kept ⟨setField st.record n.fieldName v, st.log ++ [n.fieldName]⟩
          hmem2 hperm2 htopo2 hkeys2
      refine ⟨kept', st', ?_, ⟨surv, hsurv, hsub.cons _⟩, hmem', hperm', htopo', hkeys', ?_⟩
      · show runPass load (n :: rest) kept st = Except.ok (kept', st')
        rw [runPass, if_pos hready, hrtag]
        simp only [hv]
        exact heq
      · intro n₀ hn₀ hrdy
        rcases List.mem_cons.mp hn₀ with rfl | hn₀'
        · rw [hsurv]
          intro hc
          have hnk : n₀.fieldName ∉ names kept := by
            have hdisj := (List.nodup_append.mp hknodup).2.2
            intro hmk
            exact hdisj hmk (List.mem_cons_self _ _)
          have hnr : n₀.fieldName ∉ names rest := by
            have := (List.nodup_cons.mp (List.nodup_append.mp hknodup).2.1).1
            exact this
          rcases List.mem_append.mp hc with h | h
          · exact hnk (List.mem_map_of_mem _ h)
          · exact hnr (List.mem_map_of_mem _ (hsub.subset h))
        · refine hproc' n₀ hn₀' ?_
          intro d hd
          have hbig := hrdy d hd
          intro hc
          apply hbig
          have : names (kept ++ rest) = names kept ++ names rest := by simp [names]
          rw [this] at hc
          have : names (kept ++ n :: rest) =
              names kept ++ n.fieldName :: names rest := by simp [names]
          rw [this]
          rcases List.mem_append.mp hc with h | h
          · exact List.mem_append.mpr (Or.inl h)
          · exact List.mem_append.mpr (Or.inr (List.mem_cons_of_mem _ h))
    · have heqlist : (kept ++ [n]) ++ rest = kept ++ n :: rest := by simp
      have hmem2 : ∀ m ∈ (kept ++ [n]) ++ rest, m ∈ g := by rw [heqlist]; exact hmem
      have hperm2 : (st.log ++ names ((kept ++ [n]) ++ rest)).Perm (names g) := by
        rw [heqlist]; exact hperm
      obtain ⟨kept', st', heq, ⟨surv, hsurv, hsub⟩, hmem', hperm', htopo', hkeys', hproc'⟩ :=
        ih (kept ++ [n]) st hmem2 hperm2 htopo hkeys
      refine ⟨kept', st', ?_, ⟨n :: surv, ?_, hsub.cons₂ _⟩, hmem', hperm', htopo', hkeys', ?_⟩
      · show runPass load (n :: rest) kept st = Except.ok (kept', st')
        rw [runPass, if_neg hready]
        exact heq
      · rw [hsurv]; simp
      · intro n₀ hn₀ hrdy
        rcases List.mem_cons.mp hn₀ with rfl | hn₀'
        · exfalso
          apply hready
          rw [isReady, List.all_eq_true]
          intro d hd
          simpa using hrdy d hd
        · refine hproc' n₀ hn₀' ?_
          intro d hd
          rw [heqlist]
          exact hrdy d hd

theorem runSched_ok (g : List Node) (load : LoadFn) (reorder : List Node → List Node)
    (fields : List FieldSpec)
    (hreorder : ∀ l : List Node, (reorder l).Perm l)
    (hnodup : (names g).Nodup)
    (hclosed : ∀ nd ∈ g, ∀ d ∈ nd.deps, d ∈ names g)
    (hresolve : ∀ nd ∈ g, resolveOk (fieldNames fields) nd.tag = true)
    (hload : ∀ ln f t, ∃ v, load ln f t = Except.ok v)
    (r : Str → Nat)
    (hrank : ∀ nd ∈ g, ∀ d ∈ nd.deps, d ∈ names g → r d < r nd.fieldName) :
    ∀ (fuel : Nat) (pending : List Node) (st : St),
      pending.length < fuel →
      (∀ n ∈ pending, n ∈ g) →
      (st.log ++ names pending).Perm (names g) →
      TopoOrdered g [] st.log →
      keysOf st.record = fieldNames fields →
      ∃ st', runSched load reorder fuel pending st = (st', none) ∧
        st'.log.Perm (names g) ∧ TopoOrdered g [] st'.log ∧
        keysOf st'.record = fieldNames fields := by
  intro fuel
  induction fuel with
  | zero =>
    intro pending st hlt
    exact absurd hlt (Nat.not_lt_zero _)
  | succ f ihf =>
    intro pending st hlt hmem hperm htopo hkeys
    cases pending with
    | nil => exact ⟨st, rfl, by simpa [names] using hperm, htopo, hkeys⟩
    | cons p ps =>
      have hperm0 := hreorder (p :: ps)
      have hmemr : ∀ m ∈ ([] : List Node) ++ reorder (p :: ps), m ∈ g := by
        intro m hm
        exact hmem m (hperm0.mem_iff.mp (by simpa using hm))
      have hpermr : (st.log ++ names (([] : List Node) ++ reorder (p :: ps))).Perm (names g) := by
        refine List.Perm.trans (List.Perm.append_left st.log ?_) hperm
        simpa [names] using hperm0.map (·.fieldName)
      obtain ⟨kept', st', heq, ⟨surv, hsurv, hsub⟩, hmem', hperm', htopo', hkeys', hproc'⟩ :=
        runPass_ok g load fields hnodup hclosed hresolve hload (reorder (p :: ps)) [] st
          hmemr hpermr htopo hkeys
      have hne : reorder (p :: ps) ≠ [] := by
        intro h
        have hl := hperm0.length_eq
        rw [h] at hl
        simp at hl
      obtain ⟨n₀, hn₀, hmin⟩ := exists_min_rank (fun m => r m.fieldName) _ hne
      have hrdy : ∀ d ∈ n₀.deps, d ∉ names (([] : List Node) ++ reorder (p :: ps)) := by
        intro d hd hdin
        simp only [List.nil_append] at hdin
        obtain ⟨m, hm, hmd⟩ := List.mem_map.mp hdin
        have hmg : m ∈ g := hmemr m (by simpa using hm)
        have hn₀g : n₀ ∈ g := hmemr n₀ (by simpa using hn₀)
        have hd1 : r d < r n₀.fieldName :=
          hrank n₀ hn₀g d hd (hmd ▸ List.mem_map_of_mem _ hmg)
        have hd2 : r n₀.fieldName ≤ r m.fieldName := hmin m hm
        rw [hmd] at hd2
        exact absurd hd1 (Nat.not_lt.mpr hd2)
      have hnotin : n₀ ∉ kept' := hproc' n₀ hn₀ hrdy
      have hsurv' : kept' = surv := by simpa using hsurv
      have hklt : kept'.length < (p :: ps).length := by
        rw [hsurv']
        calc surv.length < (reorder (p :: ps)).length :=
              sublist_length_lt _ surv n₀ hsub hn₀ (hsurv' ▸ hnotin)
          _ = (p :: ps).length := hperm0.length_eq
      obtain ⟨st'', heq2, hperm'', htopo'', hkeys''⟩ :=
        ihf kept' st' (Nat.lt_of_lt_of_le hklt (Nat.lt_succ_iff.mp hlt)) hmem'
          hperm' htopo' hkeys'
      refine ⟨st'', ?_, hperm'', htopo'', hkeys''⟩
      rw [runSched]
      simp only [heq]
      rw [if_pos hklt]
      exact heq2

/-- C3 (amended): for every record whose tracked fields form a closed acyclic
dependency graph (distinct field names, every parsed dependency tracked, a
rank function witnessing acyclicity), whose tags all pass the resolver
(every `@`-part names a record field in its entirety), and whose adapter
calls all succeed, `Load` succeeds, invokes each annotated field's adapter
exactly once (the invocation log is a permutation of the tracked names), and
resolves every field strictly after all tracked fields its tag references —
under every iteration order the runtime may choose. -/
theorem C3_acyclic_all_loaded (load : LoadFn) (reorder : List Node → List Node)
    (mapOrder detectOrder : List Str) (fields : List FieldSpec)
    (hnodup : (names (buildNodes mapOrder fields)).Nodup)
    (hord : detectOrder.Perm (names (buildNodes mapOrder fields)))
    (hreorder : ∀ l : List Node, (reorder l).Perm l)
    (hclosed : ∀ nd ∈ buildNodes mapOrder fields, ∀ d ∈ nd.deps,
      d ∈ names (buildNodes mapOrder fields))
    (hrank : ∃ r : Str → Nat, ∀ nd ∈ buildNodes mapOrder fields, ∀ d ∈ nd.deps,
      d ∈ names (buildNodes mapOrder fields) → r d < r nd.fieldName)
    (hresolve : ∀ nd ∈ buildNodes mapOrder fields,
      resolveOk (fieldNames fields) nd.tag = true)
    (hload : ∀ ln f t, ∃ v, load ln f t = Except.ok v) :
    ∃ st, Load load reorder mapOrder detectOrder fields = (st, none) ∧
      st.log.Perm (names (buildNodes mapOrder fields)) ∧
      (∀ l1 f l2, st.log = l1 ++ f :: l2 →
        ∀ nd ∈ buildNodes mapOrder fields, nd.fieldName = f →
          ∀ d ∈ nd.deps, d ∈ l1) := by
  obtain ⟨r, hr⟩ := hrank
  have hordmem : ∀ x ∈ detectOrder, x ∈ names (buildNodes mapOrder fields) :=
    fun x hx => hord.mem_iff.mp hx
  have hdet : detectCircularDependencies detectOrder (buildNodes mapOrder fields) = none := by
    cases hdet : detectCircularDependencies detectOrder (buildNodes mapOrder fields) with
    | none => rfl
    | some e =>
      obtain ⟨hcirc, hunb, hfuel⟩ :=
        detect_some_props _ detectOrder e hordmem hdet
      cases e with
      | circular a b =>
        obtain ⟨_, hcy⟩ := hcirc a b rfl
        exact absurd hcy (rank_no_cycle _ r hr)
      | unbound x =>
        obtain ⟨hnone, mm, hedge⟩ := hunb x rfl
        obtain ⟨nd, hm, _, hx⟩ := edge_elim _ mm x hedge
        exact absurd (hclosed nd hm x hx)
          (fun hmm => lookup_ne_none_of_mem_names _ x hmm hnone)
      | fuelOut => exact absurd rfl hfuel
  obtain ⟨st', heq, hperm', htopo', _⟩ :=
    runSched_ok (buildNodes mapOrder fields) load reorder fields hreorder hnodup
      hclosed hresolve hload r hr ((buildNodes mapOrder fields).length + 1)
      (buildNodes mapOrder fields) ⟨initRec fields, []⟩ (Nat.lt_succ_self _)
      (fun n hn => hn) (by simp [names]) trivial (keysOf_initRec fields)
  refine ⟨st', ?_, hperm', ?_⟩
  · unfold Load
    simp only []
    rw [hdet]
    exact heq
  · intro l1 f l2 hsplit nd hm he d hd
    have := TopoOrdered_split (buildNodes mapOrder fields) l1 [] st'.log f l2
      htopo' hsplit nd hm he d hd
    simpa using this

/-- Witness for `C3_acyclic_all_loaded`: `A` references `B`, `B` is a
literal, every loader call succeeds. -/
theorem C3_acyclic_all_loaded_witness :
    ∃ st, Load cLoadOk id [str "env"] [str "A", str "B"] fieldsC3w = (st, none) ∧
      st.log.Perm (names (buildNodes [str "env"] fieldsC3w)) ∧
      (∀ l1 f l2, st.log = l1 ++ f :: l2 →
        ∀ nd ∈ buildNodes [str "env"] fieldsC3w, nd.fieldName = f →
          ∀ d ∈ nd.deps, d ∈ l1) :=
  C3_acyclic_all_loaded cLoadOk id [str "env"] [str "A", str "B"] fieldsC3w
    (by decide) (by decide) (fun l => List.Perm.refl l) (by decide)
    ⟨fun x => if x = str "A" then 1 else 0, by decide⟩ (by decide)
    (fun _ _ _ => ⟨str "v", rfl⟩)

/-- C3 counterexample: the record `{A: "@B:k", B: "x"}` has an acyclic
tracked dependency graph (`A` depends on `B` only, third conjunct) and its
adapters never fail (`cLoadOk` is constant), yet `Load` does not invoke `A`'s
adapter at all: after `B` resolves, resolving `A`'s tag fails because the
resolver looks up the whole remainder `B:k`, so `Load` stops with a
resolver error and `A` is absent from the invocation log. -/
theorem C3_counterexample :
    (Load cLoadOk id [str "env"] [str "A", str "B"] fieldsC3).2 =
      some (LoadErr.resolving (str "A") (Err.unbound (str "B:k"))) ∧
      str "A" ∉ (Load cLoadOk id [str "env"] [str "A", str "B"] fieldsC3).1.log ∧
      (buildNodes [str "env"] fieldsC3).map (·.deps) = [[str "B"], []] := by
  refine ⟨by decide, by decide, by decide⟩

theorem runPass_loading_last (load : LoadFn) :
    ∀ (toProcess kept : List Node) (st : St) (f m : Str) (st' : St),
      runPass load toProcess kept st = Except.error (LoadErr.loading f m, st') →
      st'.log.getLast? = some f := by
  intro toProcess
  induction toProcess with
  | nil => intro kept st f m st' h; exact Except.noConfusion h
  | cons n rest ih =>
    intro kept st f m st' h
    rw [runPass] at h
    by_cases hready : isReady (names (kept ++ n :: rest)) n = true
    · rw [if_pos hready] at h
      cases hres : resolveTag st.record n.tag with
      | error e =>
        rw [hres] at h
        have hpair : (LoadErr.resolving n.fieldName e, st) = (LoadErr.loading f m, st') := by
          injection h
        have h1 : LoadErr.resolving n.fieldName e = LoadErr.loading f m :=
          congrArg Prod.fst hpair
        exact LoadErr.noConfusion h1
      | ok rtag =>
        simp only [hres] at h
        cases hld : load n.loaderName n.fieldName rtag with
        | error m2 =>
          simp only [hld] at h
          have hpair : (LoadErr.loading n.fieldName m2,
              (⟨st.record, st.log ++ [n.fieldName]⟩ : St)) = (LoadErr.loading f m, st') := by
            injection h
          have h1 : LoadErr.loading n.fieldName m2 = LoadErr.loading f m :=
            congrArg Prod.fst hpair
          have h2 : (⟨st.record, st.log ++ [n.fieldName]⟩ : St) = st' :=
            congrArg Prod.snd hpair
          have hf : n.fieldName = f := by injection h1
          rw [← h2, ← hf]
          exact List.getLast?_concat _
        | ok v =>
          simp only [hld] at h
          exact ih kept _ f m st' h
    · rw [if_neg hready] at h
      exact ih (kept ++ [n]) st f m st' h

theorem runSched_loading_last (load : LoadFn) (reorder : List Node → List Node) :
    ∀ (fuel : Nat) (pending : List Node) (st : St) (f m : Str) (st' : St),
      runSched load reorder fuel pending st = (st', some (LoadErr.loading f m)) →
      st'.log.getLast? = some f := by
  intro fuel
  induction fuel with
  | zero =>
    intro pending st f m st' h
    cases pending with
    | nil =>
      rw [runSched] at h
      have := congrArg Prod.snd h
      simp at this
    | cons p ps =>
      rw [runSched] at h
      have := congrArg Prod.snd h
      simp at this
  | succ fl ih =>
    intro pending st f m st' h
    cases pending with
    | nil =>
      rw [runSched] at h
      have := congrArg Prod.snd h
      simp at this
    | cons p ps =>
      rw [runSched] at h
      cases hp : runPass load (reorder (p :: ps)) [] st with
      | error pr =>
        obtain ⟨e, st2⟩ := pr
        simp only [hp] at h
        have h1 : st2 = st' := congrArg Prod.fst h
        have h2 : some e = some (LoadErr.loading f m) := congrArg Prod.snd h
        have h3 : e = LoadErr.loading f m := by injection h2
        subst h3
        rw [← h1]
        exact runPass_loading_last load (reorder (p :: ps)) [] st f m st2 hp
      | ok pr =>
        obtain ⟨pending', st2⟩ := pr
        simp only [hp] at h
        by_cases hlen : pending'.length < (p :: ps).length
        · rw [if_pos hlen] at h
          exact ih pending' st2 f m st' h
        · rw [if_neg hlen] at h
          have := congrArg Prod.snd h
          simp at this

/-- C5 (amended): `Load` stops at the first error during the ready-field
pass and wraps it with the owning field's name: whenever `Load` returns a
loader error for field `f`, the invocation log ends with `f` — no adapter
runs after the failing one.  The returned record, however, retains the
values written by earlier successful adapter calls (see the counterexample):
Go returns the named result `config` as already mutated. -/
theorem C5_stops_at_first_error (load : LoadFn) (reorder : List Node → List Node)
    (mapOrder detectOrder : List Str) (fields : List FieldSpec)
    (st : St) (f m : Str)
    (h : Load load reorder mapOrder detectOrder fields =
      (st, some (LoadErr.loading f m))) :
    st.log.getLast? = some f := by
  unfold Load at h
  simp only [] at h
  cases hdet : detectCircularDependencies detectOrder (buildNodes mapOrder fields) with
  | some e =>
    rw [hdet] at h
    have := congrArg Prod.snd h
    simp at this
  | none =>
    rw [hdet] at h
    exact runSched_loading_last load reorder _ _ _ f m st h

/-- Witness for `C5_stops_at_first_error`: with `cLoad5`, field `A` loads
and field `B` fails; the log is `[A, B]`, ending at the failing field. -/
theorem C5_stops_at_first_error_witness :
    ((⟨[(str "A", str "x"), (str "B", [])], [str "A", str "B"]⟩ : St)).log.getLast? =
      some (str "B") :=
  C5_stops_at_first_error cLoad5 id [str "env"] [str "A", str "B"] cFields5
    ⟨[(str "A", str "x"), (str "B", [])], [str "A", str "B"]⟩
    (str "B") (str "boom") (by decide)

/-- C5 counterexample: with `cLoad5` the adapter of `A` succeeds (writing
`x`) and the adapter of `B` fails.  `Load` returns the loading error for `B`
together with a record in which `A` already holds `x` — the returned record
is not the zero value, contradicting "no field of the returned record holds
a value written by an earlier successful adapter call". -/
theorem C5_counterexample :
    (Load cLoad5 id [str "env"] [str "A", str "B"] cFields5).2 =
      some (LoadErr.loading (str "B") (str "boom")) ∧
      lookupRec (Load cLoad5 id [str "env"] [str "A", str "B"] cFields5).1.record
        (str "A") = some (str "x") ∧
      (Load cLoad5 id [str "env"] [str "A", str "B"] cFields5).1.record ≠
        initRec cFields5 := by
  refine ⟨by decide, by decide, by decide⟩
